import Mathlib

/-!
# Shallow embedding of `src/raphtory/src/graphgen/erdos_renyl.rs`

The source file defines `erdos_renyl(graph, n_nodes, p, seed)`, which

1. builds a random source (`StdRng::from_seed` when a seed is given,
   `StdRng::from_entropy` otherwise),
2. reads `graph.latest_time().unwrap_or(0)` and the list of existing node
   identifiers, computes `max_id = next_id(graph, ids.iter().max().cloned())`,
3. node phase: `n_nodes` times, sets `max_id = next_id(graph, Some(max_id))`,
   bumps the timestamp, and calls `add_node`; an `Err` from `add_node` is
   logged and dropped (`.map_err(|e| error!(..)).ok()`),
4. edge phase: re-reads all node identifiers and, for every ordered pair
   with `id != other_id`, draws one `f64` sample; if the sample is `< p` it
   bumps the timestamp and calls `add_edge(..).expect(..)`, so an edge
   insertion failure aborts the whole call.

The graph storage (`Graph`, `add_node`, `add_edge`, `latest_time`,
`nodes().id().iter_values()`), the allocator `next_id` (in the enclosing
`graphgen` module) and the random source (`rand::StdRng`) are external to the
source file; they are modelled from the specification, as recorded in the doc
comment of each of those definitions.  Timestamps are `Int` (`i64`), node
identifiers are `Nat`, probabilities and samples are `Rat` (samples live on
the `2^53` grid of `[0,1)`, matching the uniform `f64` sampling grid).
-/

/-- Modelled from the spec: the external graph collaborator (raphtory's
`Graph`, not part of the source file).  `nodes` and `edges` hold the inserted
items as `(timestamp, id)` resp. `(timestamp, src, dst)` in insertion order
(the spec guarantees a stable iteration order).  The storage layer may reject
an insertion (`add_node` / `add_edge` return `Result<(), Error>` in the spec);
we model its failure decisions as the explicit oracles `nodeFailures` /
`edgeFailures`: an insertion call whose arguments are listed there fails.
`add_node` additionally fails on a duplicate-id collision, the failure the
spec names explicitly. -/
structure Graph where
  nodes : List (Int × Nat)
  edges : List (Int × Nat × Nat)
  nodeFailures : List (Int × Nat)
  edgeFailures : List (Int × Nat × Nat)
deriving DecidableEq

/-- `graph.nodes().id().iter_values()`: the node identifiers in stable
insertion order. -/
def Graph.node_ids (g : Graph) : List Nat := g.nodes.map Prod.snd

/-- Modelled from the spec: `latest_time() -> Option<Timestamp>`, `None` when
the graph has no events; otherwise the maximum recorded event time. -/
def Graph.latest_time (g : Graph) : Option Int :=
  (g.nodes.map Prod.fst ++ g.edges.map Prod.fst).max?

/-- Modelled from the spec: `add_node(timestamp, id, NO_PROPS, None)`.
Fails when the storage oracle rejects the call or on id collision; on success
the node is appended. -/
def Graph.add_node (g : Graph) (t : Int) (i : Nat) : Except Unit Graph :=
  if (t, i) ∈ g.nodeFailures ∨ i ∈ g.node_ids then Except.error ()
  else Except.ok { g with nodes := g.nodes ++ [(t, i)] }

/-- Modelled from the spec: `add_edge(timestamp, src, dst, NO_PROPS, None)`.
Fails exactly when the storage oracle rejects the call; on success the edge is
appended. -/
def Graph.add_edge (g : Graph) (t : Int) (src dst : Nat) : Except Unit Graph :=
  if (t, src, dst) ∈ g.edgeFailures then Except.error ()
  else Except.ok { g with edges := g.edges ++ [(t, src, dst)] }

/-- The empty graph (`Graph::new()`), with a never-failing storage layer. -/
def Graph.empty : Graph := ⟨[], [], [], []⟩

/-- Modelled from the spec: `next_id` (defined in the enclosing `graphgen`
module, not in the source file) is a strictly-increasing successor function
over the previous maximum identifier — numeric increment — starting from an
externally defined base (here `0`) when the graph has no prior maximum. -/
def next_id (_g : Graph) (prev : Option Nat) : Nat :=
  match prev with
  | none => 0
  | some m => m + 1

/-- The grid size of uniform `f64` samples in `[0,1)`: multiples of `2^-53`. -/
def sampleDenom : Nat := 2 ^ 53

/-- Modelled from the spec: the random source (`rand::rngs::StdRng`).  The
`stream` field is the seed-determined infinite supply of raw draws, `idx` the
number of samples consumed so far. -/
structure StdRng where
  stream : Nat → Nat
  idx : Nat

/-- Modelled from the spec: `rng.gen::<f64>()` draws one uniform sample in
`[0,1)` (a multiple of `2^-53`) and advances the generator. -/
def StdRng.gen (r : StdRng) : Rat × StdRng :=
  (mkRat (r.stream r.idx % sampleDenom) sampleDenom, ⟨r.stream, r.idx + 1⟩)

/-- A fixed mixing function turning a seed into a raw draw stream; any fixed
function models the spec's requirement that the seed fully determines the
sample sequence. -/
def seedHash (seed : List Nat) : Nat :=
  seed.foldl (fun a b => a * 131 + b + 7) 5381

/-- Modelled from the spec: `StdRng::from_seed(seed)` — the sample sequence is
a pure function of the seed, with no samples consumed yet. -/
def StdRng.from_seed (seed : List Nat) : StdRng :=
  ⟨fun i => (seedHash seed + 1) * (2 * i + 1) * 2654435761, 0⟩

/-- Modelled from the spec: `StdRng::from_entropy()` — the sample sequence
comes from ambient system entropy, which we pass in explicitly. -/
def StdRng.from_entropy (entropy : Nat → Nat) : StdRng := ⟨entropy, 0⟩

/-- The seed dispatch at the top of `erdos_renyl`: seeded when a seed is
provided, entropy-driven otherwise. -/
def rngInit (entropy : Nat → Nat) (seed : Option (List Nat)) : StdRng :=
  match seed with
  | some s => StdRng.from_seed s
  | none => StdRng.from_entropy entropy

/-- Outcome of a generation call.  In the source `erdos_renyl` mutates the
caller's graph in place and panics (`.expect`) on an edge-insertion failure;
we return the graph (holding whatever was committed before any abort), the
final random source and the final timestamp counter, tagged by whether the
call completed or aborted on a failing `add_edge`. -/
inductive GenResult where
  | ok (g : Graph) (rng : StdRng) (latest : Int)
  | edgeError (g : Graph) (rng : StdRng) (latest : Int)

/-- The graph state held by a generation outcome (committed insertions). -/
def GenResult.graph : GenResult → Graph
  | .ok g _ _ => g
  | .edgeError g _ _ => g

/-- The random source held by a generation outcome. -/
def GenResult.rng : GenResult → StdRng
  | .ok _ r _ => r
  | .edgeError _ r _ => r

/-- The timestamp counter held by a generation outcome. -/
def GenResult.latest : GenResult → Int
  | .ok _ _ t => t
  | .edgeError _ _ t => t

/-- `true` iff the generation call completed without aborting. -/
def GenResult.isOk : GenResult → Bool
  | .ok _ _ _ => true
  | .edgeError _ _ _ => false

/-- The node-creation loop (`for _ in 0..n_nodes`): advance `max_id` by
`next_id`, bump the timestamp, attempt `add_node`; a failure is logged and
dropped (`.map_err(..).ok()`), so the loop continues on the unchanged graph.
Returns the graph, the timestamp counter and the id cursor after the loop. -/
def nodePhase (g : Graph) (latest : Int) (maxId : Nat) : Nat → Graph × Int × Nat
  | 0 => (g, latest, maxId)
  | n + 1 =>
    let maxId' := next_id g (some maxId)
    let latest' := latest + 1
    match g.add_node latest' maxId' with
    | Except.ok g' => nodePhase g' latest' maxId' n
    | Except.error _ => nodePhase g latest' maxId' n

/-- The inner edge loop (`for other_id in all_ids.iter()`) for a fixed outer
id `src`: when `src != other_id` one sample is drawn (the source's `&&` is
short-circuiting, so equal ids draw nothing); when the sample is `< p` the
timestamp is bumped and `add_edge` is attempted, and a failure aborts the
whole call (`.expect`). -/
def edgeInner (p : Rat) (g : Graph) (latest : Int) (rng : StdRng) (src : Nat) :
    List Nat → GenResult
  | [] => GenResult.ok g rng latest
  | other :: rest =>
    if src ≠ other then
      if (StdRng.gen rng).1 < p then
        match g.add_edge (latest + 1) src other with
        | Except.ok g' => edgeInner p g' (latest + 1) (StdRng.gen rng).2 src rest
        | Except.error _ => GenResult.edgeError g (StdRng.gen rng).2 (latest + 1)
      else edgeInner p g latest (StdRng.gen rng).2 src rest
    else edgeInner p g latest rng src rest

/-- The outer edge loop (`for id in all_ids.iter()`): run the inner loop for
each id in turn, stopping at the first aborted inner loop. -/
def edgeOuter (p : Rat) (g : Graph) (latest : Int) (rng : StdRng)
    (allIds : List Nat) : List Nat → GenResult
  | [] => GenResult.ok g rng latest
  | src :: rest =>
    match edgeInner p g latest rng src allIds with
    | GenResult.ok g' rng' latest' => edgeOuter p g' latest' rng' allIds rest
    | GenResult.edgeError g' rng' latest' => GenResult.edgeError g' rng' latest'

/-- `erdos_renyl(graph, n_nodes, p, seed)` from the source file: build the
random source, read `latest_time().unwrap_or(0)` and the existing ids, seed
the id cursor with `next_id(graph, ids.iter().max().cloned())`, run the node
phase, re-read all ids, and run the pairwise edge-sampling phase.  `entropy`
is the ambient entropy consumed only when `seed` is `None`. -/
def erdos_renyl (entropy : Nat → Nat) (graph : Graph) (n_nodes : Nat) (p : Rat)
    (seed : Option (List Nat)) : GenResult :=
  let rng := rngInit entropy seed
  let latest_time := (Graph.latest_time graph).getD 0
  let ids := graph.node_ids
  let max_id := next_id graph ids.max?
  let st := nodePhase graph latest_time max_id n_nodes
  let all_ids := st.1.node_ids
  edgeOuter p st.1 st.2.1 rng all_ids all_ids

/-- The full sequence of node insertion attempts a node phase starting at
timestamp `l` and id cursor `m` performs: attempt `k` (zero-based) is the pair
`(l + 1 + k, m + 1 + k)`. -/
def attemptList (l : Int) (m : Nat) (n : Nat) : List (Int × Nat) :=
  (List.range n).map fun (k : Nat) => ((l + 1 + (k : Int), m + 1 + k) : Int × Nat)

/-- Entropy source used for concrete evaluations. -/
def ent0 : Nat → Nat := fun _ => 0

/-- A concrete seed used for concrete evaluations. -/
def seed0 : List Nat := [0]

/-! ## Basic facts about the modelled collaborators -/

theorem sampleDenom_pos : 0 < sampleDenom := by
  simp [sampleDenom]

theorem StdRng.gen_fst_nonneg (r : StdRng) : 0 ≤ (StdRng.gen r).1 := by
  simp only [StdRng.gen]
  rw [Rat.mkRat_eq_div]
  apply div_nonneg
  · exact_mod_cast Int.ofNat_nonneg _
  · exact_mod_cast Nat.zero_le _

theorem StdRng.gen_fst_lt_one (r : StdRng) : (StdRng.gen r).1 < 1 := by
  simp only [StdRng.gen]
  rw [Rat.mkRat_eq_div]
  have hd : (0 : Rat) < (sampleDenom : Rat) := by exact_mod_cast sampleDenom_pos
  rw [div_lt_one hd]
  have h : r.stream r.idx % sampleDenom < sampleDenom :=
    Nat.mod_lt _ sampleDenom_pos
  exact_mod_cast h

theorem StdRng.gen_snd_stream (r : StdRng) : (StdRng.gen r).2.stream = r.stream := rfl

theorem StdRng.gen_snd_idx (r : StdRng) : (StdRng.gen r).2.idx = r.idx + 1 := rfl

theorem le_of_mem_of_max?_eq_some {l : List Nat} {mx : Nat} (h : l.max? = some mx) :
    ∀ i ∈ l, i ≤ mx :=
  (List.max?_eq_some_iff'.mp h).2

/-! ## Node phase -/

theorem nodePhase_latest (n : Nat) : ∀ (g : Graph) (l : Int) (m : Nat),
    (nodePhase g l m n).2.1 = l + n := by
  induction n with
  | zero => intro g l m; simp [nodePhase]
  | succ k ih =>
    intro g l m
    simp only [nodePhase]
    split
    · rw [ih]; push_cast; ring
    · rw [ih]; push_cast; ring

theorem nodePhase_maxId (n : Nat) : ∀ (g : Graph) (l : Int) (m : Nat),
    (nodePhase g l m n).2.2 = m + n := by
  induction n with
  | zero => intro g l m; simp [nodePhase]
  | succ k ih =>
    intro g l m
    simp only [nodePhase, next_id]
    split
    · rw [ih]; omega
    · rw [ih]; omega

theorem attemptList_succ (l : Int) (m : Nat) (n : Nat) :
    attemptList l m (n + 1) = (l + 1, m + 1) :: attemptList (l + 1) (m + 1) n := by
  simp only [attemptList, List.range_succ_eq_map, List.map_cons, List.map_map]
  congr 1
  · norm_num
  · apply List.map_congr_left
    intro k _
    simp only [Function.comp_apply, Prod.mk.injEq]
    refine ⟨by push_cast; ring, by omega⟩

theorem next_id_some (g : Graph) (m : Nat) : next_id g (some m) = m + 1 := rfl

theorem next_id_none (g : Graph) : next_id g none = 0 := rfl

theorem nodePhase_sublist (n : Nat) : ∀ (g : Graph) (l : Int) (m : Nat),
    (nodePhase g l m n).1.edges = g.edges ∧
    (nodePhase g l m n).1.nodeFailures = g.nodeFailures ∧
    (nodePhase g l m n).1.edgeFailures = g.edgeFailures ∧
    ∃ s, (nodePhase g l m n).1.nodes = g.nodes ++ s ∧ s.Sublist (attemptList l m n) := by
  induction n with
  | zero =>
    intro g l m
    refine ⟨rfl, rfl, rfl, [], by simp [nodePhase, attemptList]⟩
  | succ k ih =>
    intro g l m
    simp only [nodePhase, next_id_some]
    rw [attemptList_succ]
    cases hadd : g.add_node (l + 1) (m + 1) with
    | ok g' =>
      obtain ⟨he, hnf, hef, s, hs, hsub⟩ := ih g' (l + 1) (m + 1)
      have hg' : g'.nodes = g.nodes ++ [(l + 1, m + 1)] ∧ g'.edges = g.edges ∧
          g'.nodeFailures = g.nodeFailures ∧ g'.edgeFailures = g.edgeFailures := by
        simp only [Graph.add_node] at hadd
        split at hadd
        · cases hadd
        · cases hadd; exact ⟨rfl, rfl, rfl, rfl⟩
      refine ⟨by rw [he, hg'.2.1], by rw [hnf, hg'.2.2.1], by rw [hef, hg'.2.2.2],
        (l + 1, m + 1) :: s, ?_, List.Sublist.cons₂ _ hsub⟩
      rw [hs, hg'.1, List.append_assoc]
      rfl
    | error e =>
      obtain ⟨he, hnf, hef, s, hs, hsub⟩ := ih g (l + 1) (m + 1)
      exact ⟨he, hnf, hef, s, hs, List.Sublist.cons _ hsub⟩

theorem nodePhase_exact (n : Nat) : ∀ (g : Graph) (l : Int) (m : Nat),
    g.nodeFailures = [] → (∀ i ∈ g.node_ids, i ≤ m) →
    (nodePhase g l m n).1.nodes = g.nodes ++ attemptList l m n := by
  induction n with
  | zero =>
    intro g l m _ _
    simp [nodePhase, attemptList]
  | succ k ih =>
    intro g l m hfail hb
    simp only [nodePhase, next_id_some]
    have hnm : m + 1 ∉ g.node_ids := fun hmem => absurd (hb _ hmem) (by omega)
    have hadd : g.add_node (l + 1) (m + 1) =
        Except.ok { g with nodes := g.nodes ++ [(l + 1, m + 1)] } := by
      simp only [Graph.add_node]
      rw [if_neg]
      rw [hfail]
      simp [hnm]
    simp only [hadd]
    have hids : ∀ i ∈ (Graph.mk (g.nodes ++ [(l + 1, m + 1)]) g.edges
        g.nodeFailures g.edgeFailures).node_ids, i ≤ m + 1 := by
      intro i hi
      simp only [Graph.node_ids, List.map_append, List.mem_append] at hi
      rcases hi with hi | hi
      · exact Nat.le_succ_of_le (hb i hi)
      · simp at hi; omega
    rw [ih (Graph.mk (g.nodes ++ [(l + 1, m + 1)]) g.edges g.nodeFailures
      g.edgeFailures) (l + 1) (m + 1) hfail hids]
    simp only [attemptList_succ]
    rw [List.append_assoc]
    rfl

/-! ## Edge phase -/

theorem Graph.add_edge_ok_shape {g : Graph} {t : Int} {s d : Nat} {g' : Graph}
    (h : g.add_edge t s d = Except.ok g') :
    g' = { g with edges := g.edges ++ [(t, s, d)] } := by
  simp only [Graph.add_edge] at h
  split at h
  · cases h
  · cases h; rfl

theorem edgeInner_spec (p : Rat) (src : Nat) : ∀ (others : List Nat) (g : Graph)
    (l : Int) (rng : StdRng),
    (edgeInner p g l rng src others).graph.nodes = g.nodes ∧
    (edgeInner p g l rng src others).graph.nodeFailures = g.nodeFailures ∧
    (edgeInner p g l rng src others).graph.edgeFailures = g.edgeFailures ∧
    (edgeInner p g l rng src others).rng.stream = rng.stream ∧
    rng.idx ≤ (edgeInner p g l rng src others).rng.idx ∧
    l ≤ (edgeInner p g l rng src others).latest ∧
    ∃ s, (edgeInner p g l rng src others).graph.edges = g.edges ++ s ∧
      (∀ e ∈ s, l < e.1 ∧ e.1 ≤ (edgeInner p g l rng src others).latest ∧
        e.2.1 = src ∧ e.2.2 ∈ others ∧ e.2.2 ≠ src) ∧
      (s.map Prod.fst).Pairwise (· < ·) := by
  intro others
  induction others with
  | nil =>
    intro g l rng
    refine ⟨rfl, rfl, rfl, rfl, Nat.le_refl _, le_refl _, [], ?_, by simp, by simp⟩
    show g.edges = g.edges ++ []
    simp
  | cons other rest ih =>
    intro g l rng
    by_cases hso : src = other
    · simp only [edgeInner]
      rw [if_neg (by simp [hso])]
      obtain ⟨h1, h2, h3, h4, h5, h6, s, hs, hprops, hpw⟩ := ih g l rng
      refine ⟨h1, h2, h3, h4, h5, h6, s, hs, ?_, hpw⟩
      intro e he
      obtain ⟨a, b, c, d, f⟩ := hprops e he
      exact ⟨a, b, c, List.mem_cons_of_mem _ d, f⟩
    · have hso' : src ≠ other := hso
      simp only [edgeInner]
      rw [if_pos hso']
      by_cases hq : (StdRng.gen rng).1 < p
      · rw [if_pos hq]
        cases hadd : g.add_edge (l + 1) src other with
        | ok g2 =>
          simp only [hadd]
          have hg2 := Graph.add_edge_ok_shape hadd
          subst hg2
          obtain ⟨h1, h2, h3, h4, h5, h6, s, hs, hprops, hpw⟩ :=
            ih { g with edges := g.edges ++ [(l + 1, src, other)] } (l + 1) (StdRng.gen rng).2
          refine ⟨h1, h2, h3, h4, Nat.le_trans (Nat.le_succ _) h5,
            le_trans (by omega) h6, (l + 1, src, other) :: s, ?_, ?_, ?_⟩
          · rw [hs]
            simp [List.append_assoc]
          · intro e he
            rcases List.mem_cons.mp he with he | he
            · subst he
              exact ⟨by omega, h6, rfl, List.mem_cons_self _ _,
                fun h => hso h.symm⟩
            · obtain ⟨a, b, c, d, f⟩ := hprops e he
              exact ⟨by omega, b, c, List.mem_cons_of_mem _ d, f⟩
          · simp only [List.map_cons]
            refine List.pairwise_cons.mpr ⟨?_, hpw⟩
            intro t ht
            obtain ⟨e, he, rfl⟩ := List.mem_map.mp ht
            exact (hprops e he).1
        | error e0 =>
          simp only [hadd]
          refine ⟨rfl, rfl, rfl, rfl, Nat.le_succ _, by show l ≤ l + 1; omega, [],
            ?_, by simp, by simp⟩
          show g.edges = g.edges ++ []
          simp
      · rw [if_neg hq]
        obtain ⟨h1, h2, h3, h4, h5, h6, s, hs, hprops, hpw⟩ := ih g l (StdRng.gen rng).2
        refine ⟨h1, h2, h3, h4, Nat.le_trans (Nat.le_succ _) h5, h6, s, hs, ?_, hpw⟩
        intro e he
        obtain ⟨a, b, c, d, f⟩ := hprops e he
        exact ⟨a, b, c, List.mem_cons_of_mem _ d, f⟩

theorem edgeOuter_spec (p : Rat) (allIds : List Nat) : ∀ (outer : List Nat)
    (g : Graph) (l : Int) (rng : StdRng),
    (edgeOuter p g l rng allIds outer).graph.nodes = g.nodes ∧
    (edgeOuter p g l rng allIds outer).graph.nodeFailures = g.nodeFailures ∧
    (edgeOuter p g l rng allIds outer).graph.edgeFailures = g.edgeFailures ∧
    (edgeOuter p g l rng allIds outer).rng.stream = rng.stream ∧
    rng.idx ≤ (edgeOuter p g l rng allIds outer).rng.idx ∧
    l ≤ (edgeOuter p g l rng allIds outer).latest ∧
    ∃ s, (edgeOuter p g l rng allIds outer).graph.edges = g.edges ++ s ∧
      (∀ e ∈ s, l < e.1 ∧ e.1 ≤ (edgeOuter p g l rng allIds outer).latest ∧
        e.2.1 ∈ outer ∧ e.2.2 ∈ allIds ∧ e.2.2 ≠ e.2.1) ∧
      (s.map Prod.fst).Pairwise (· < ·) := by
  intro outer
  induction outer with
  | nil =>
    intro g l rng
    refine ⟨rfl, rfl, rfl, rfl, Nat.le_refl _, le_refl _, [], ?_, by simp, by simp⟩
    show g.edges = g.edges ++ []
    simp
  | cons src rest ih =>
    intro g l rng
    have I := edgeInner_spec p src allIds g l rng
    simp only [edgeOuter]
    cases h1 : edgeInner p g l rng src allIds with
    | ok g1 rng1 l1 =>
      simp only [h1, GenResult.graph, GenResult.rng, GenResult.latest] at I
      obtain ⟨hn1, hnf1, hef1, hst1, hidx1, hlt1, s1, hs1, hp1, hpw1⟩ := I
      obtain ⟨hn2, hnf2, hef2, hst2, hidx2, hlt2, s2, hs2, hp2, hpw2⟩ := ih g1 l1 rng1
      refine ⟨hn2.trans hn1, hnf2.trans hnf1, hef2.trans hef1, hst2.trans hst1,
        Nat.le_trans hidx1 hidx2, le_trans hlt1 hlt2, s1 ++ s2, ?_, ?_, ?_⟩
      · rw [hs2, hs1, List.append_assoc]
      · intro e he
        rcases List.mem_append.mp he with he | he
        · obtain ⟨a, b, c, d, f⟩ := hp1 e he
          exact ⟨a, le_trans b hlt2, by rw [c]; exact List.mem_cons_self _ _, d,
            by rw [c]; exact f⟩
        · obtain ⟨a, b, c, d, f⟩ := hp2 e he
          exact ⟨lt_of_le_of_lt hlt1 a, b, List.mem_cons_of_mem _ c, d, f⟩
      · rw [List.map_append]
        rw [List.pairwise_append]
        refine ⟨hpw1, hpw2, ?_⟩
        intro a ha b hb
        obtain ⟨e1, he1, rfl⟩ := List.mem_map.mp ha
        obtain ⟨e2, he2, rfl⟩ := List.mem_map.mp hb
        exact lt_of_le_of_lt (hp1 e1 he1).2.1 (hp2 e2 he2).1
    | edgeError g1 rng1 l1 =>
      simp only [h1, GenResult.graph, GenResult.rng, GenResult.latest] at I
      obtain ⟨hn1, hnf1, hef1, hst1, hidx1, hlt1, s1, hs1, hp1, hpw1⟩ := I
      refine ⟨hn1, hnf1, hef1, hst1, hidx1, hlt1, s1, hs1, ?_, hpw1⟩
      intro e he
      obtain ⟨a, b, c, d, f⟩ := hp1 e he
      exact ⟨a, b, by rw [c]; exact List.mem_cons_self _ _, d, by rw [c]; exact f⟩

theorem edgeInner_noFail (p : Rat) (src : Nat) : ∀ (others : List Nat) (g : Graph)
    (l : Int) (rng : StdRng), g.edgeFailures = [] →
    (edgeInner p g l rng src others).isOk = true ∧
    (edgeInner p g l rng src others).rng.idx =
      rng.idx + others.countP (fun o => decide (src ≠ o)) ∧
    (1 ≤ p → (edgeInner p g l rng src others).graph.edges.length =
      g.edges.length + others.countP (fun o => decide (src ≠ o))) := by
  intro others
  induction others with
  | nil =>
    intro g l rng _
    exact ⟨rfl, by simp [edgeInner, GenResult.rng, List.countP_nil],
      fun _ => by simp [edgeInner, GenResult.graph, List.countP_nil]⟩
  | cons other rest ih =>
    intro g l rng hEF
    by_cases hso : src = other
    · simp only [edgeInner]
      rw [if_neg (by simp [hso])]
      obtain ⟨h1, h2, h3⟩ := ih g l rng hEF
      refine ⟨h1, ?_, ?_⟩
      · rw [h2, List.countP_cons]
        simp [hso]
      · intro hp
        rw [h3 hp, List.countP_cons]
        simp [hso]
    · have hso' : src ≠ other := hso
      simp only [edgeInner]
      rw [if_pos hso']
      by_cases hq : (StdRng.gen rng).1 < p
      · rw [if_pos hq]
        have hadd : g.add_edge (l + 1) src other =
            Except.ok { g with edges := g.edges ++ [(l + 1, src, other)] } := by
          simp [Graph.add_edge, hEF]
        simp only [hadd]
        obtain ⟨h1, h2, h3⟩ :=
          ih { g with edges := g.edges ++ [(l + 1, src, other)] } (l + 1)
            (StdRng.gen rng).2 hEF
        refine ⟨h1, ?_, ?_⟩
        · rw [h2, List.countP_cons]
          have : (StdRng.gen rng).2.idx = rng.idx + 1 := rfl
          rw [this]
          simp [hso']
          omega
        · intro hp
          rw [h3 hp, List.countP_cons]
          simp [hso']
          omega
      · rw [if_neg hq]
        obtain ⟨h1, h2, h3⟩ := ih g l (StdRng.gen rng).2 hEF
        refine ⟨h1, ?_, ?_⟩
        · rw [h2, List.countP_cons]
          have : (StdRng.gen rng).2.idx = rng.idx + 1 := rfl
          rw [this]
          simp [hso']
          omega
        · intro hp
          exact absurd (lt_of_lt_of_le (StdRng.gen_fst_lt_one rng) hp) hq

theorem edgeOuter_noFail (p : Rat) (allIds : List Nat) : ∀ (outer : List Nat)
    (g : Graph) (l : Int) (rng : StdRng), g.edgeFailures = [] →
    (edgeOuter p g l rng allIds outer).isOk = true ∧
    (edgeOuter p g l rng allIds outer).rng.idx =
      rng.idx + (outer.map fun s => allIds.countP fun o => decide (s ≠ o)).sum ∧
    (1 ≤ p → (edgeOuter p g l rng allIds outer).graph.edges.length =
      g.edges.length + (outer.map fun s => allIds.countP fun o => decide (s ≠ o)).sum) := by
  intro outer
  induction outer with
  | nil =>
    intro g l rng _
    exact ⟨rfl, by simp [edgeOuter, GenResult.rng],
      fun _ => by simp [edgeOuter, GenResult.graph]⟩
  | cons src rest ih =>
    intro g l rng hEF
    have I := edgeInner_noFail p src allIds g l rng hEF
    have S := edgeInner_spec p src allIds g l rng
    simp only [edgeOuter]
    cases h1 : edgeInner p g l rng src allIds with
    | ok g1 rng1 l1 =>
      simp only [h1, GenResult.graph, GenResult.rng, GenResult.isOk] at I S
      obtain ⟨_, hidx1, hlen1⟩ := I
      obtain ⟨hn1, hnf1, hef1, hst1, _, _, s1, hs1, _, _⟩ := S
      have hEF1 : g1.edgeFailures = [] := hef1.trans hEF
      obtain ⟨h1ok, h2idx, h3len⟩ := ih g1 l1 rng1 hEF1
      refine ⟨h1ok, ?_, ?_⟩
      · rw [h2idx, hidx1, List.map_cons, List.sum_cons]
        omega
      · intro hp
        rw [h3len hp, hlen1 hp, List.map_cons, List.sum_cons]
        omega
    | edgeError g1 rng1 l1 =>
      simp only [h1, GenResult.isOk] at I
      exact absurd I.1 (by simp)

theorem countP_ne_of_nodup : ∀ (l : List Nat), l.Nodup → ∀ s ∈ l,
    (l.countP fun o => decide (s ≠ o)) = l.length - 1 := by
  intro l
  induction l with
  | nil => intro _ s hs; cases hs
  | cons a t ih =>
    intro hnd s hs
    have hna : a ∉ t := (List.nodup_cons.mp hnd).1
    have hndt : t.Nodup := (List.nodup_cons.mp hnd).2
    rcases List.mem_cons.mp hs with rfl | hst
    · have hlen : t.countP (fun o => decide (s ≠ o)) = t.length := by
        rw [List.countP_eq_length]
        intro o ho
        simp only [decide_eq_true_eq]
        exact fun h => hna (h ▸ ho)
      rw [List.countP_cons, hlen]
      have h1 : (decide (s ≠ s)) = false := by simp
      rw [h1]
      simp
    · have hsa : s ≠ a := fun h => hna (h ▸ hst)
      have h1 : (decide (s ≠ a)) = true := by simp [hsa]
      rw [List.countP_cons, h1, ih hndt s hst]
      have hpos : 1 ≤ t.length :=
        List.length_pos.mpr (fun h => by rw [h] at hst; cases hst)
      simp only [List.length_cons, if_true]
      omega

theorem sum_map_const_of {α : Type} : ∀ (l : List α) (f : α → Nat) (c : Nat),
    (∀ x ∈ l, f x = c) → (l.map f).sum = l.length * c := by
  intro l
  induction l with
  | nil => intro f c _; simp
  | cons a t ih =>
    intro f c h
    rw [List.map_cons, List.sum_cons, ih f c (fun x hx => h x (List.mem_cons_of_mem _ hx)),
      h a (List.mem_cons_self _ _), List.length_cons]
    ring

theorem sum_countP_ne (l : List Nat) (hnd : l.Nodup) :
    ((l.map fun s => l.countP fun o => decide (s ≠ o)).sum) =
      l.length * (l.length - 1) :=
  sum_map_const_of l _ _ (fun x hx => countP_ne_of_nodup l hnd x hx)

/-! ## Whole-run decomposition -/

theorem erdos_renyl_def (entropy : Nat → Nat) (g : Graph) (n : Nat) (p : Rat)
    (seed : Option (List Nat)) :
    erdos_renyl entropy g n p seed =
      edgeOuter p
        (nodePhase g ((Graph.latest_time g).getD 0) (next_id g g.node_ids.max?) n).1
        (nodePhase g ((Graph.latest_time g).getD 0) (next_id g g.node_ids.max?) n).2.1
        (rngInit entropy seed)
        (nodePhase g ((Graph.latest_time g).getD 0) (next_id g g.node_ids.max?) n).1.node_ids
        (nodePhase g ((Graph.latest_time g).getD 0) (next_id g g.node_ids.max?) n).1.node_ids :=
  rfl

theorem ids_le_cursor (g : Graph) : ∀ i ∈ g.node_ids, i ≤ next_id g g.node_ids.max? := by
  intro i hi
  cases h : g.node_ids.max? with
  | none =>
    rw [List.max?_eq_none_iff] at h
    rw [h] at hi
    cases hi
  | some mx =>
    have := le_of_mem_of_max?_eq_some h i hi
    rw [next_id_some]
    omega

theorem mem_attemptList {l : Int} {m n : Nat} {e : Int × Nat}
    (h : e ∈ attemptList l m n) : ∃ k, k < n ∧ e = (l + 1 + (k : Int), m + 1 + k) := by
  simp only [attemptList, List.mem_map, List.mem_range] at h
  obtain ⟨k, hk, he⟩ := h
  exact ⟨k, hk, he.symm⟩

theorem nodePhase_node_ids_exact (g : Graph) (l : Int) (m : Nat) (n : Nat)
    (hfail : g.nodeFailures = []) (hb : ∀ i ∈ g.node_ids, i ≤ m) :
    (nodePhase g l m n).1.node_ids =
      g.node_ids ++ (List.range n).map (fun k => m + 1 + k) := by
  unfold Graph.node_ids
  rw [nodePhase_exact n g l m hfail hb]
  rw [List.map_append]
  congr 1
  simp [attemptList, List.map_map, Function.comp]

theorem nodePhase_node_ids_nodup (g : Graph) (l : Int) (m : Nat) (n : Nat)
    (hb : ∀ i ∈ g.node_ids, i ≤ m) (hnd : g.node_ids.Nodup) :
    (nodePhase g l m n).1.node_ids.Nodup := by
  obtain ⟨_, _, _, s, hs, hsub⟩ := nodePhase_sublist n g l m
  have : (nodePhase g l m n).1.node_ids = g.node_ids ++ s.map Prod.snd := by
    unfold Graph.node_ids
    rw [hs, List.map_append]
  rw [this]
  rw [List.nodup_append]
  have hsub2 : (s.map Prod.snd).Sublist ((attemptList l m n).map Prod.snd) :=
    List.Sublist.map _ hsub
  have hmapeq : (attemptList l m n).map Prod.snd =
      (List.range n).map (fun k => m + 1 + k) := by
    simp [attemptList, List.map_map, Function.comp]
  have hnd2 : (s.map Prod.snd).Nodup := by
    refine List.Nodup.sublist hsub2 ?_
    rw [hmapeq]
    refine List.Nodup.map ?_ (List.nodup_range n)
    intro a b hab
    have hab' : m + 1 + a = m + 1 + b := hab
    omega
  refine ⟨hnd, hnd2, ?_⟩
  intro i hi hi2
  have hle : i ≤ m := hb i hi
  have : m + 1 ≤ i := by
    have hmem : i ∈ (attemptList l m n).map Prod.snd := hsub2.subset hi2
    rw [hmapeq] at hmem
    simp only [List.mem_map, List.mem_range] at hmem
    obtain ⟨k, _, hk⟩ := hmem
    omega
  omega

theorem rngInit_idx (entropy : Nat → Nat) (seed : Option (List Nat)) :
    (rngInit entropy seed).idx = 0 := by
  cases seed <;> rfl

/-! ## Claim theorems -/

/-- C1: for every seed value, every `n_nodes`, every `p`, and every starting
graph state, two calls to `erdos_renyl` with that same seed, same `n_nodes`,
same `p` and the same starting graph state produce identical resulting edge
sets.  In the embedding the ambient entropy is the only input beyond the
call's arguments, and it is consumed only when the seed is absent, so the
result is a function of the seeded arguments alone. -/
theorem erdos_renyl_seed_determinism (g : Graph) (n : Nat) (p : Rat)
    (s : List Nat) (entropy1 entropy2 : Nat → Nat) :
    (erdos_renyl entropy1 g n p (some s)).graph.edges =
      (erdos_renyl entropy2 g n p (some s)).graph.edges := rfl

/-- C10: the node-creation phase consumes no random draws: two calls that
differ only in the seed argument (and even in the ambient entropy) insert
exactly the same node identifiers with the same timestamps; the seed
influences only the edge phase. -/
theorem erdos_renyl_nodes_seed_independent (g : Graph) (n : Nat) (p : Rat)
    (seed1 seed2 : Option (List Nat)) (entropy1 entropy2 : Nat → Nat) :
    (erdos_renyl entropy1 g n p seed1).graph.nodes =
      (erdos_renyl entropy2 g n p seed2).graph.nodes := by
  rw [erdos_renyl_def, erdos_renyl_def]
  rw [(edgeOuter_spec _ _ _ _ _ _).1, (edgeOuter_spec _ _ _ _ _ _).1]

/-- C3 counterexample: a starting graph state whose storage layer rejects the
single attempted node insertion (timestamp `1`, id `1`) ends with `0` nodes,
not `0 + 1`: the final node count can fall short of
(pre-existing count) + `n_nodes`. -/
theorem erdos_renyl_node_count_cex :
    (erdos_renyl ent0 (Graph.mk [] [] [(1, 1)] []) 1 0
        (some seed0)).graph.nodes.length ≠
      (Graph.mk [] [] [(1, 1)] []).nodes.length + 1 := by
  decide

/-- C3 amended: provided the storage layer accepts every node insertion (no
node-insertion failure occurs during the call), the final node count equals
the pre-existing node count plus `n_nodes`, for every starting graph state. -/
theorem erdos_renyl_node_count_no_failures (entropy : Nat → Nat) (g : Graph)
    (n : Nat) (p : Rat) (seed : Option (List Nat)) (hNF : g.nodeFailures = []) :
    (erdos_renyl entropy g n p seed).graph.nodes.length = g.nodes.length + n := by
  rw [erdos_renyl_def]
  rw [(edgeOuter_spec _ _ _ _ _ _).1]
  rw [nodePhase_exact n g _ _ hNF (ids_le_cursor g)]
  simp [attemptList]

theorem erdos_renyl_node_count_no_failures_witness :
    (Graph.mk [(0, 5)] [] [] []).nodeFailures = [] ∧
    (erdos_renyl ent0 (Graph.mk [(0, 5)] [] [] []) 2 0
        (some seed0)).graph.nodes.length =
      (Graph.mk [(0, 5)] [] [] []).nodes.length + 2 :=
  ⟨rfl, erdos_renyl_node_count_no_failures ent0 (Graph.mk [(0, 5)] [] [] []) 2 0
    (some seed0) rfl⟩

/-- C4 counterexample: starting from a graph with one pre-existing node (id
`5`) and adding `n_nodes = 1` node, the edge phase consumes `2` draws
(`n_total × (n_total − 1)` with `n_total = 2`), not
`n_nodes × (n_total − 1) = 1` as the claim states — no node is skipped in
this run. -/
theorem erdos_renyl_draws_cex :
    (erdos_renyl ent0 (Graph.mk [(0, 5)] [] [] []) 1 0 (some seed0)).rng.idx = 2 ∧
    1 * ((erdos_renyl ent0 (Graph.mk [(0, 5)] [] [] []) 1 0
        (some seed0)).graph.nodes.length - 1) = 1 := by
  decide

/-- C4 amended: when the starting identifiers are duplicate-free and no edge
insertion aborts the run, the edge-sampling phase consumes exactly
`n_total × (n_total − 1)` uniform draws, where `n_total` is the full
post-insertion node count (not `n_nodes × (n_total − 1)`). -/
theorem erdos_renyl_draws_total (entropy : Nat → Nat) (g : Graph) (n : Nat)
    (p : Rat) (seed : Option (List Nat)) (hEF : g.edgeFailures = [])
    (hnd : g.node_ids.Nodup) :
    (erdos_renyl entropy g n p seed).rng.idx =
      (erdos_renyl entropy g n p seed).graph.nodes.length *
        ((erdos_renyl entropy g n p seed).graph.nodes.length - 1) := by
  have hb := ids_le_cursor g
  rw [erdos_renyl_def]
  obtain ⟨he1, hnf1, hef1, _⟩ := nodePhase_sublist n g ((Graph.latest_time g).getD 0)
    (next_id g g.node_ids.max?)
  have hEF1 : (nodePhase g ((Graph.latest_time g).getD 0)
      (next_id g g.node_ids.max?) n).1.edgeFailures = [] := by rw [hef1, hEF]
  have hndAll := nodePhase_node_ids_nodup g ((Graph.latest_time g).getD 0)
    (next_id g g.node_ids.max?) n hb hnd
  obtain ⟨_, hidx, _⟩ := edgeOuter_noFail p
    (nodePhase g ((Graph.latest_time g).getD 0) (next_id g g.node_ids.max?) n).1.node_ids
    (nodePhase g ((Graph.latest_time g).getD 0) (next_id g g.node_ids.max?) n).1.node_ids
    (nodePhase g ((Graph.latest_time g).getD 0) (next_id g g.node_ids.max?) n).1
    (nodePhase g ((Graph.latest_time g).getD 0) (next_id g g.node_ids.max?) n).2.1
    (rngInit entropy seed) hEF1
  rw [hidx, sum_countP_ne _ hndAll, rngInit_idx, (edgeOuter_spec _ _ _ _ _ _).1]
  simp [Graph.node_ids]

theorem erdos_renyl_draws_total_witness :
    (Graph.mk [(0, 5)] [] [] []).edgeFailures = [] ∧
    (Graph.mk [(0, 5)] [] [] []).node_ids.Nodup ∧
    (erdos_renyl ent0 (Graph.mk [(0, 5)] [] [] []) 1 0 (some seed0)).rng.idx =
      (erdos_renyl ent0 (Graph.mk [(0, 5)] [] [] []) 1 0
          (some seed0)).graph.nodes.length *
        ((erdos_renyl ent0 (Graph.mk [(0, 5)] [] [] []) 1 0
            (some seed0)).graph.nodes.length - 1) :=
  ⟨rfl, by decide, erdos_renyl_draws_total ent0 (Graph.mk [(0, 5)] [] [] []) 1 0
    (some seed0) rfl (by decide)⟩

/-- C5: starting from an empty graph, a call with `p = 1.0` produces exactly
`n_nodes × (n_nodes − 1)` edges: every sample is `< 1`, so every ordered pair
of distinct nodes receives a directed edge. -/
theorem erdos_renyl_full_probability (entropy : Nat → Nat) (n : Nat)
    (seed : Option (List Nat)) :
    (erdos_renyl entropy Graph.empty n 1 seed).graph.edges.length = n * (n - 1) := by
  have hb := ids_le_cursor Graph.empty
  rw [erdos_renyl_def]
  obtain ⟨he1, hnf1, hef1, _⟩ := nodePhase_sublist n Graph.empty
    ((Graph.latest_time Graph.empty).getD 0)
    (next_id Graph.empty Graph.empty.node_ids.max?)
  have hEF1 : (nodePhase Graph.empty ((Graph.latest_time Graph.empty).getD 0)
      (next_id Graph.empty Graph.empty.node_ids.max?) n).1.edgeFailures = [] := by
    rw [hef1]; rfl
  have hndAll := nodePhase_node_ids_nodup Graph.empty
    ((Graph.latest_time Graph.empty).getD 0)
    (next_id Graph.empty Graph.empty.node_ids.max?) n hb
    (by simp [Graph.empty, Graph.node_ids])
  obtain ⟨_, _, hlen⟩ := edgeOuter_noFail 1
    (nodePhase Graph.empty ((Graph.latest_time Graph.empty).getD 0)
      (next_id Graph.empty Graph.empty.node_ids.max?) n).1.node_ids
    (nodePhase Graph.empty ((Graph.latest_time Graph.empty).getD 0)
      (next_id Graph.empty Graph.empty.node_ids.max?) n).1.node_ids
    (nodePhase Graph.empty ((Graph.latest_time Graph.empty).getD 0)
      (next_id Graph.empty Graph.empty.node_ids.max?) n).1
    (nodePhase Graph.empty ((Graph.latest_time Graph.empty).getD 0)
      (next_id Graph.empty Graph.empty.node_ids.max?) n).2.1
    (rngInit entropy seed) hEF1
  rw [hlen (le_refl 1), sum_countP_ne _ hndAll, he1]
  have hA : (nodePhase Graph.empty ((Graph.latest_time Graph.empty).getD 0)
      (next_id Graph.empty Graph.empty.node_ids.max?) n).1.node_ids.length = n := by
    rw [nodePhase_node_ids_exact Graph.empty ((Graph.latest_time Graph.empty).getD 0)
      (next_id Graph.empty Graph.empty.node_ids.max?) n rfl hb]
    simp [Graph.empty, Graph.node_ids]
  rw [hA]
  simp [Graph.empty]

/-- C8 counterexample: a pre-existing self-loop `(0, 1, 1)` (source equals
destination equals `1`) survives a generation call untouched, so it is not
true that after a call, for every starting graph state, no self-loop exists
in the graph. -/
theorem erdos_renyl_self_loop_cex :
    (0, 1, 1) ∈ (erdos_renyl ent0 (Graph.mk [(0, 1)] [(0, 1, 1)] [] []) 0 0
      (some seed0)).graph.edges := by
  decide

/-- C8 amended: the generator itself never inserts an edge whose source
equals its destination; hence if the starting graph contains no self-loop,
none exists after the call. -/
theorem erdos_renyl_no_new_self_loops (entropy : Nat → Nat) (g : Graph)
    (n : Nat) (p : Rat) (seed : Option (List Nat))
    (hg : ∀ t a, (t, a, a) ∉ g.edges) :
    ∀ t a, (t, a, a) ∉ (erdos_renyl entropy g n p seed).graph.edges := by
  intro t a hmem
  rw [erdos_renyl_def] at hmem
  obtain ⟨_, _, _, _, _, _, s, hs, hprops, _⟩ := edgeOuter_spec p
    (nodePhase g ((Graph.latest_time g).getD 0) (next_id g g.node_ids.max?) n).1.node_ids
    (nodePhase g ((Graph.latest_time g).getD 0) (next_id g g.node_ids.max?) n).1.node_ids
    (nodePhase g ((Graph.latest_time g).getD 0) (next_id g g.node_ids.max?) n).1
    (nodePhase g ((Graph.latest_time g).getD 0) (next_id g g.node_ids.max?) n).2.1
    (rngInit entropy seed)
  rw [hs] at hmem
  obtain ⟨he1, _, _, _⟩ := nodePhase_sublist n g ((Graph.latest_time g).getD 0)
    (next_id g g.node_ids.max?)
  rw [he1] at hmem
  rcases List.mem_append.mp hmem with hin | hin
  · exact hg t a hin
  · exact (hprops _ hin).2.2.2.2 rfl

theorem erdos_renyl_no_new_self_loops_witness :
    (0, 1, 1) ∉ (erdos_renyl ent0 Graph.empty 2 1 (some seed0)).graph.edges :=
  erdos_renyl_no_new_self_loops ent0 Graph.empty 2 1 (some seed0)
    (fun _ _ h => List.not_mem_nil _ h) 0 1

/-- C9: the identifier of the first node inserted is obtained by applying the
successor `next_id` twice to the maximum pre-existing identifier (once before
the insertion loop, once inside its first iteration), so the immediate
successor of the pre-existing maximum is skipped and never used as a node
id. -/
theorem erdos_renyl_first_id (entropy : Nat → Nat) (g : Graph) (n : Nat)
    (p : Rat) (seed : Option (List Nat)) (mx : Nat)
    (hmx : g.node_ids.max? = some mx) (hNF : g.nodeFailures = []) (hn : 1 ≤ n) :
    (((erdos_renyl entropy g n p seed).graph.nodes.drop g.nodes.length).head?).map
        Prod.snd = some (next_id g (some (next_id g (some mx)))) ∧
    next_id g (some mx) ∉ (erdos_renyl entropy g n p seed).graph.node_ids := by
  have hb := ids_le_cursor g
  rw [erdos_renyl_def]
  have hnodes : (edgeOuter p
      (nodePhase g ((Graph.latest_time g).getD 0) (next_id g g.node_ids.max?) n).1
      (nodePhase g ((Graph.latest_time g).getD 0) (next_id g g.node_ids.max?) n).2.1
      (rngInit entropy seed)
      (nodePhase g ((Graph.latest_time g).getD 0) (next_id g g.node_ids.max?) n).1.node_ids
      (nodePhase g ((Graph.latest_time g).getD 0)
        (next_id g g.node_ids.max?) n).1.node_ids).graph.nodes =
      g.nodes ++ attemptList ((Graph.latest_time g).getD 0)
        (next_id g g.node_ids.max?) n := by
    rw [(edgeOuter_spec _ _ _ _ _ _).1]
    exact nodePhase_exact n g _ _ hNF hb
  constructor
  · rw [hnodes, List.drop_left]
    obtain ⟨k, rfl⟩ : ∃ k, n = k + 1 := ⟨n - 1, by omega⟩
    rw [hmx, next_id_some, attemptList_succ]
    simp [next_id_some]
  · intro hmem
    have hmem' : next_id g (some mx) ∈
        (g.nodes ++ attemptList ((Graph.latest_time g).getD 0)
          (next_id g g.node_ids.max?) n).map Prod.snd := by
      rw [← hnodes]
      exact hmem
    rw [List.map_append, next_id_some] at hmem'
    rcases List.mem_append.mp hmem' with hin | hin
    · have := le_of_mem_of_max?_eq_some hmx _ hin
      omega
    · rw [hmx, next_id_some] at hin
      simp only [attemptList, List.map_map, List.mem_map, List.mem_range] at hin
      obtain ⟨k, _, hk⟩ := hin
      have hk' : mx + 1 + 1 + k = mx + 1 := hk
      omega

theorem erdos_renyl_first_id_witness :
    ((Graph.mk [(0, 5)] [] [] []).node_ids.max? = some 5) ∧
    ((((erdos_renyl ent0 (Graph.mk [(0, 5)] [] [] []) 1 0
        (some seed0)).graph.nodes.drop
          (Graph.mk [(0, 5)] [] [] []).nodes.length).head?).map Prod.snd =
        some 7 ∧
      6 ∉ (erdos_renyl ent0 (Graph.mk [(0, 5)] [] [] []) 1 0
        (some seed0)).graph.node_ids) :=
  ⟨rfl, erdos_renyl_first_id ent0 (Graph.mk [(0, 5)] [] [] []) 1 0 (some seed0) 5
    rfl rfl (by decide)⟩

/-- C6: a failing `add_node` during the node-creation phase is skipped, not
retried, and does not abort: the loop continues on the unchanged graph with
the next identifier and the next timestamp, and whenever the edge-phase
storage never rejects an insertion, the whole call completes without aborting
no matter which node insertions failed. -/
theorem erdos_renyl_node_failure_skipped :
    (∀ (g : Graph) (l : Int) (m : Nat) (n : Nat),
      g.add_node (l + 1) (next_id g (some m)) = Except.error () →
      nodePhase g l m (n + 1) = nodePhase g (l + 1) (next_id g (some m)) n) ∧
    (∀ (entropy : Nat → Nat) (g : Graph) (n : Nat) (p : Rat)
      (seed : Option (List Nat)), g.edgeFailures = [] →
      (erdos_renyl entropy g n p seed).isOk = true) := by
  constructor
  · intro g l m n h
    simp only [nodePhase, h]
  · intro entropy g n p seed hEF
    rw [erdos_renyl_def]
    obtain ⟨_, _, hef1, _⟩ := nodePhase_sublist n g ((Graph.latest_time g).getD 0)
      (next_id g g.node_ids.max?)
    have hEF1 : (nodePhase g ((Graph.latest_time g).getD 0)
        (next_id g g.node_ids.max?) n).1.edgeFailures = [] := by rw [hef1, hEF]
    exact (edgeOuter_noFail p _ _ _ _ (rngInit entropy seed) hEF1).1

theorem erdos_renyl_node_failure_skipped_witness :
    nodePhase (Graph.mk [] [] [(1, 1)] []) 0 0 1 =
      nodePhase (Graph.mk [] [] [(1, 1)] []) 1 1 0 ∧
    (erdos_renyl ent0 (Graph.mk [] [] [(1, 1)] []) 1 0 (some seed0)).isOk = true :=
  ⟨erdos_renyl_node_failure_skipped.1 (Graph.mk [] [] [(1, 1)] []) 0 0 0 rfl,
    erdos_renyl_node_failure_skipped.2 ent0 (Graph.mk [] [] [(1, 1)] []) 1 0
      (some seed0) rfl⟩

/-- C2: a failing `add_edge` during the edge-sampling phase aborts generation
immediately — the failing insertion commits nothing and nothing after it is
attempted — and the error is surfaced to the caller: the inner loop stops at
the failure, the outer loop propagates it unchanged, and `erdos_renyl`
returns it as its result. -/
theorem erdos_renyl_edge_failure_aborts :
    (∀ (p : Rat) (g : Graph) (l : Int) (rng : StdRng) (src other : Nat)
      (rest : List Nat), src ≠ other → (StdRng.gen rng).1 < p →
      g.add_edge (l + 1) src other = Except.error () →
      edgeInner p g l rng src (other :: rest) =
        GenResult.edgeError g (StdRng.gen rng).2 (l + 1)) ∧
    (∀ (p : Rat) (g : Graph) (l : Int) (rng : StdRng) (src : Nat)
      (rest allIds : List Nat) (gE : Graph) (rE : StdRng) (lE : Int),
      edgeInner p g l rng src allIds = GenResult.edgeError gE rE lE →
      edgeOuter p g l rng allIds (src :: rest) = GenResult.edgeError gE rE lE) ∧
    (∀ (entropy : Nat → Nat) (g : Graph) (n : Nat) (p : Rat)
      (seed : Option (List Nat)) (gE : Graph) (rE : StdRng) (lE : Int),
      edgeOuter p
        (nodePhase g ((Graph.latest_time g).getD 0) (next_id g g.node_ids.max?) n).1
        (nodePhase g ((Graph.latest_time g).getD 0) (next_id g g.node_ids.max?) n).2.1
        (rngInit entropy seed)
        (nodePhase g ((Graph.latest_time g).getD 0)
          (next_id g g.node_ids.max?) n).1.node_ids
        (nodePhase g ((Graph.latest_time g).getD 0)
          (next_id g g.node_ids.max?) n).1.node_ids =
        GenResult.edgeError gE rE lE →
      erdos_renyl entropy g n p seed = GenResult.edgeError gE rE lE) := by
  refine ⟨?_, ?_, ?_⟩
  · intro p g l rng src other rest hne hq hadd
    simp only [edgeInner]
    rw [if_pos hne, if_pos hq]
    simp only [hadd]
  · intro p g l rng src rest allIds gE rE lE h
    simp only [edgeOuter, h]
  · intro entropy g n p seed gE rE lE h
    rw [erdos_renyl_def]
    exact h

theorem erdos_renyl_edge_failure_aborts_witness :
    edgeInner 1 (Graph.mk [] [] [] [(1, 1, 2)]) 0 (StdRng.from_seed seed0) 1 [2] =
      GenResult.edgeError (Graph.mk [] [] [] [(1, 1, 2)])
        (StdRng.gen (StdRng.from_seed seed0)).2 1 ∧
    edgeOuter 1 (Graph.mk [] [] [] [(1, 1, 2)]) 0 (StdRng.from_seed seed0) [2] [1] =
      GenResult.edgeError (Graph.mk [] [] [] [(1, 1, 2)])
        (StdRng.gen (StdRng.from_seed seed0)).2 1 ∧
    erdos_renyl ent0 (Graph.mk [] [] [] [(3, 1, 2)]) 2 1 (some seed0) =
      GenResult.edgeError (Graph.mk [(1, 1), (2, 2)] [] [] [(3, 1, 2)])
        (StdRng.gen (StdRng.from_seed seed0)).2 3 :=
  ⟨erdos_renyl_edge_failure_aborts.1 1 (Graph.mk [] [] [] [(1, 1, 2)]) 0
      (StdRng.from_seed seed0) 1 2 [] (by decide)
      (StdRng.gen_fst_lt_one (StdRng.from_seed seed0)) rfl,
   erdos_renyl_edge_failure_aborts.2.1 1 (Graph.mk [] [] [] [(1, 1, 2)]) 0
      (StdRng.from_seed seed0) 1 [] [2] (Graph.mk [] [] [] [(1, 1, 2)])
      (StdRng.gen (StdRng.from_seed seed0)).2 1
      (erdos_renyl_edge_failure_aborts.1 1 (Graph.mk [] [] [] [(1, 1, 2)]) 0
        (StdRng.from_seed seed0) 1 2 [] (by decide)
        (StdRng.gen_fst_lt_one (StdRng.from_seed seed0)) rfl),
   erdos_renyl_edge_failure_aborts.2.2 ent0 (Graph.mk [] [] [] [(3, 1, 2)]) 2 1
      (some seed0) (Graph.mk [(1, 1), (2, 2)] [] [] [(3, 1, 2)])
      (StdRng.gen (StdRng.from_seed seed0)).2 3 rfl⟩

theorem attemptList_fst (l : Int) (m n : Nat) :
    (attemptList l m n).map Prod.fst =
      (List.range n).map fun (k : Nat) => l + 1 + (k : Int) := by
  rw [attemptList, List.map_map]
  rfl

theorem attemptList_fst_pairwise (l : Int) (m n : Nat) :
    ((attemptList l m n).map Prod.fst).Pairwise (· < ·) := by
  rw [attemptList_fst, List.pairwise_map]
  refine (List.pairwise_lt_range n).imp ?_
  intro a b hab
  omega

theorem mem_attemptList_fst {l : Int} {m n : Nat} {t : Int}
    (h : t ∈ (attemptList l m n).map Prod.fst) : l < t ∧ t ≤ l + n := by
  rw [attemptList_fst] at h
  simp only [List.mem_map, List.mem_range] at h
  obtain ⟨k, hk, rfl⟩ := h
  omega

/-- C7: the timestamps form a single shared counter.  The node phase bumps
the counter by exactly `1` per insertion attempt, including failing attempts
(part one: after `n` attempts the counter is the input counter plus `n`).
The counter starts at the graph's latest recorded time (`0` when empty), so
the timestamps of the newly inserted nodes followed by the newly inserted
edges are strictly increasing, the node timestamps lie in
`(latest, latest + n_nodes]` and every edge timestamp is strictly above
`latest + n_nodes` — every insertion carries a strictly larger timestamp than
the previous insertion attempt. -/
theorem erdos_renyl_timestamps :
    (∀ (g : Graph) (l : Int) (m : Nat) (n : Nat),
      (nodePhase g l m n).2.1 = l + n) ∧
    (∀ (entropy : Nat → Nat) (g : Graph) (n : Nat) (p : Rat)
      (seed : Option (List Nat)),
      List.Pairwise (· < ·)
        ((((erdos_renyl entropy g n p seed).graph.nodes.drop g.nodes.length).map
            Prod.fst) ++
          (((erdos_renyl entropy g n p seed).graph.edges.drop g.edges.length).map
            Prod.fst)) ∧
      (∀ t ∈ ((erdos_renyl entropy g n p seed).graph.nodes.drop
          g.nodes.length).map Prod.fst,
        (Graph.latest_time g).getD 0 < t ∧
          t ≤ (Graph.latest_time g).getD 0 + n) ∧
      (∀ t ∈ ((erdos_renyl entropy g n p seed).graph.edges.drop
          g.edges.length).map Prod.fst,
        (Graph.latest_time g).getD 0 + n < t)) := by
  constructor
  · exact fun g l m n => nodePhase_latest n g l m
  · intro entropy g n p seed
    rw [erdos_renyl_def]
    obtain ⟨he1, hnf1, hef1, sN, hsN, hsubN⟩ := nodePhase_sublist n g
      ((Graph.latest_time g).getD 0) (next_id g g.node_ids.max?)
    obtain ⟨hn2, _, _, _, _, hlt2, sE, hsE, hpropsE, hpwE⟩ := edgeOuter_spec p
      (nodePhase g ((Graph.latest_time g).getD 0)
        (next_id g g.node_ids.max?) n).1.node_ids
      (nodePhase g ((Graph.latest_time g).getD 0)
        (next_id g g.node_ids.max?) n).1.node_ids
      (nodePhase g ((Graph.latest_time g).getD 0) (next_id g g.node_ids.max?) n).1
      (nodePhase g ((Graph.latest_time g).getD 0) (next_id g g.node_ids.max?) n).2.1
      (rngInit entropy seed)
    have hL1 : (nodePhase g ((Graph.latest_time g).getD 0)
        (next_id g g.node_ids.max?) n).2.1 = (Graph.latest_time g).getD 0 + n :=
      nodePhase_latest n g _ _
    have hnodesr : (edgeOuter p
        (nodePhase g ((Graph.latest_time g).getD 0) (next_id g g.node_ids.max?) n).1
        (nodePhase g ((Graph.latest_time g).getD 0) (next_id g g.node_ids.max?) n).2.1
        (rngInit entropy seed)
        (nodePhase g ((Graph.latest_time g).getD 0)
          (next_id g g.node_ids.max?) n).1.node_ids
        (nodePhase g ((Graph.latest_time g).getD 0)
          (next_id g g.node_ids.max?) n).1.node_ids).graph.nodes.drop
        g.nodes.length = sN := by
      rw [hn2, hsN, List.drop_left]
    have hedgesr : (edgeOuter p
        (nodePhase g ((Graph.latest_time g).getD 0) (next_id g g.node_ids.max?) n).1
        (nodePhase g ((Graph.latest_time g).getD 0) (next_id g g.node_ids.max?) n).2.1
        (rngInit entropy seed)
        (nodePhase g ((Graph.latest_time g).getD 0)
          (next_id g g.node_ids.max?) n).1.node_ids
        (nodePhase g ((Graph.latest_time g).getD 0)
          (next_id g g.node_ids.max?) n).1.node_ids).graph.edges.drop
        g.edges.length = sE := by
      rw [hsE, he1, List.drop_left]
    rw [hnodesr, hedgesr]
    have hNmem : ∀ t ∈ sN.map Prod.fst, (Graph.latest_time g).getD 0 < t ∧
        t ≤ (Graph.latest_time g).getD 0 + n := by
      intro t ht
      have hmem : t ∈ (attemptList ((Graph.latest_time g).getD 0)
          (next_id g g.node_ids.max?) n).map Prod.fst :=
        (List.Sublist.map Prod.fst hsubN).subset ht
      exact mem_attemptList_fst hmem
    have hEmem : ∀ t ∈ sE.map Prod.fst, (Graph.latest_time g).getD 0 + n < t := by
      intro t ht
      obtain ⟨e, he, rfl⟩ := List.mem_map.mp ht
      have h1 := (hpropsE e he).1
      rw [hL1] at h1
      exact h1
    refine ⟨?_, hNmem, hEmem⟩
    rw [List.pairwise_append]
    refine ⟨List.Pairwise.sublist (List.Sublist.map Prod.fst hsubN)
      (attemptList_fst_pairwise _ _ _), hpwE, ?_⟩
    intro a ha b hb
    exact lt_of_le_of_lt (hNmem a ha).2 (hEmem b hb)

theorem erdos_renyl_timestamps_witness :
    (nodePhase (Graph.mk [] [] [(1, 1)] []) 0 0 2).2.1 = 0 + 2 ∧
    ((1 : Int) ∈ (((erdos_renyl ent0 Graph.empty 2 1
        (some seed0)).graph.nodes.drop Graph.empty.nodes.length).map Prod.fst) ∧
      ((Graph.latest_time Graph.empty).getD 0 < 1 ∧
        1 ≤ (Graph.latest_time Graph.empty).getD 0 + 2)) :=
  ⟨erdos_renyl_timestamps.1 (Graph.mk [] [] [(1, 1)] []) 0 0 2,
    by decide,
    (erdos_renyl_timestamps.2 ent0 Graph.empty 2 1 (some seed0)).2.1 1 (by decide)⟩
